import Mathlib

/-!
Shallow embedding of `example_poisson.py` (the `example.poisson` spey backend,
class `PoissonPDF`), together with theorems settling the specification claims.

Modelling conventions:
* yield vectors, observations and fit parameters are `List ℚ` (exact
  arithmetic for the products, sums, divisions, minima and comparisons the
  code performs);
* the value of a log-pmf is an `Option EReal`: `some x` for an ordinary
  extended-real value (`⊥` standing for `-∞`), and `none` standing for the
  floating-point NaN that `scipy.stats.poisson.logpmf` returns when its rate
  argument is negative;
* `scipy.stats.poisson.rvs`, the external randomness primitive, is modelled
  by an oracle `ω : ℕ → ℕ → ℚ → ℕ` giving the draw for sample row `i`,
  bin `j` and Poisson rate `λ`.
-/

namespace ExamplePoisson

/-- The statistical model of `example_poisson.py`: `PoissonPDF.__init__` just
stores the three vectors, performing no validation whatsoever. -/
structure PoissonPDF where
  signal_yields : List ℚ
  background_yields : List ℚ
  data : List ℚ
deriving DecidableEq, Repr

/-- Construction (`PoissonPDF.__init__`): stores the three vectors unchanged;
the source performs no length or sign validation, so this is total. -/
def init (signal_yields background_yields data : List ℚ) : PoissonPDF :=
  ⟨signal_yields, background_yields, data⟩

/-- The `spey.ExpectationType` enumeration. -/
inductive ExpectationType where
  | observed
  | apriori
  | aposteriori
deriving DecidableEq, Repr

/-- The `spey.base.model_config.ModelConfig` record, as constructed
positionally in `PoissonPDF.config`. -/
structure ModelConfig where
  poi_index : ℕ
  minimum_poi : ℚ
  suggested_init : List ℚ
  suggested_bounds : List (ℚ × ℚ)
deriving DecidableEq, Repr

/-- Property `is_alive`: `np.any(self.signal_yields > 0.0)`. -/
def PoissonPDF.is_alive (m : PoissonPDF) : Bool :=
  m.signal_yields.any (fun s => decide (0 < s))

/-- The ratios `background_yields[signal_yields > 0] / signal_yields[signal_yields > 0]`
formed inside `PoissonPDF.config`: bins are restricted to those with strictly
positive signal yield and the background/signal ratio is taken there. -/
def posRatios (m : PoissonPDF) : List ℚ :=
  ((m.signal_yields.zip m.background_yields).filter
    (fun p => decide (0 < p.1))).map (fun p => p.2 / p.1)

/-- Minimum of a list, as `np.min` computes it; `none` on the empty list,
where `np.min` raises `ValueError` (empty reduction). -/
def listMin : List ℚ → Option ℚ
  | [] => none
  | x :: xs =>
    some (match listMin xs with
          | none => x
          | some r => min x r)

/-- Method `config`: `min_poi` is the negated minimum of `posRatios`; the
result is `ModelConfig(0, min_poi, [0.0], [(lower, poi_upper_bound)])` with
`lower = min_poi` when `allow_negative_signal` and `0.0` otherwise. `none`
models the unguarded `ValueError` that `np.min` raises on an empty reduction
when no bin has positive signal yield. -/
def config (m : PoissonPDF) (allow_negative_signal : Bool) (poi_upper_bound : ℚ) :
    Option ModelConfig :=
  match listMin (posRatios m) with
  | none => none
  | some r =>
    some ⟨0, -r, [0], [(if allow_negative_signal then -r else 0, poi_upper_bound)]⟩

/-- Poisson log-pmf exactly as `scipy.stats.poisson.logpmf` computes it on a
count `k` and rate `mu`:
* `mu < 0` fails the distribution argument check and yields NaN (`none`);
* a `k` outside the support (negative, or not an integer) yields `-∞`;
* `mu = 0` yields `0` for `k = 0` and `-∞` for any other supported `k`
  (the `xlogy` convention);
* otherwise the value is `k * log mu - log Γ(k+1) - mu = k·log mu - log k! - mu`. -/
noncomputable def logpmfQ (k mu : ℚ) : Option EReal :=
  if mu < 0 then none
  else if k.den ≠ 1 ∨ k < 0 then some ⊥
  else if mu = 0 then (if k = 0 then some 0 else some ⊥)
  else some (((k : ℝ) * Real.log (mu : ℝ)
      - Real.log (Nat.factorial k.num.toNat) - (mu : ℝ) : ℝ) : EReal)

/-- Sum of a list of log-pmf values, as `np.sum` combines them: NaN (`none`)
propagates, and `⊥` absorbs against finite values. -/
noncomputable def sumOpt : List (Option EReal) → Option EReal
  | [] => some 0
  | x :: xs => Option.map₂ (· + ·) x (sumOpt xs)

/-- Per-bin Poisson rates `pars[0] * self.signal_yields + self.background_yields`
at POI value `mu` (numpy elementwise broadcast over the two stored vectors). -/
def rateVec (m : PoissonPDF) (mu : ℚ) : List ℚ :=
  List.zipWith (fun s b => mu * s + b) m.signal_yields m.background_yields

/-- Data vector the likelihood closes over: `background_yields` when
`expected == ExpectationType.apriori`, else the stored `data`; an explicit
`data` argument overrides that choice entirely. -/
def effectiveData (m : PoissonPDF) (expected : ExpectationType)
    (data : Option (List ℚ)) : List ℚ :=
  data.getD (if expected = ExpectationType.apriori then m.background_yields else m.data)

/-- Body of the closure returned by `get_logpdf_func`, on an explicit data
vector `d`: `np.sum(poisson.logpmf(d, pars[0]*signal + background))`. -/
noncomputable def logLikOn (m : PoissonPDF) (d : List ℚ) (pars : List ℚ) : Option EReal :=
  sumOpt ((d.zip (rateVec m pars.headI)).map (fun p => logpmfQ p.1 p.2))

/-- Method `get_logpdf_func`: selects the data vector via `effectiveData`
and returns the closure `fun pars => Σ logpmf(data, pars[0]*signal + background)`. -/
noncomputable def get_logpdf_func (m : PoissonPDF) (expected : ExpectationType)
    (data : Option (List ℚ)) : List ℚ → Option EReal :=
  logLikOn m (effectiveData m expected data)

/-- Method `get_sampler`: the returned closure calls
`poisson.rvs(pars[0]*signal + background, size=(sample_size, len(signal_yields)))`.
The scipy Poisson sampling primitive is abstracted as the oracle `ω`, applied
at each row index, bin index and that bin's rate. -/
def get_sampler (m : PoissonPDF) (pars : List ℚ) (ω : ℕ → ℕ → ℚ → ℕ)
    (sample_size : ℕ) : List (List ℕ) :=
  (List.range sample_size).map (fun i =>
    (List.range m.signal_yields.length).map (fun j =>
      ω i j ((rateVec m pars.headI).getD j 0)))

/-- Method `expected_data`: `pars[0] * self.signal_yields + self.background_yields`. -/
def expected_data (m : PoissonPDF) (pars : List ℚ) : List ℚ :=
  rateVec m pars.headI

/-- Poisson log-pmf written the way the specification states it:
`log P(k; λ) = k·log(λ) − λ − log(k!)`. -/
noncomputable def specPoissonLogpmf (k : ℕ) (lam : ℝ) : ℝ :=
  (k : ℝ) * Real.log lam - lam - Real.log (Nat.factorial k)

/-! Helper lemmas about the embedded operations. -/

lemma listMin_isLeast : ∀ l : List ℚ, l ≠ [] →
    ∃ r, listMin l = some r ∧ r ∈ l ∧ ∀ y ∈ l, r ≤ y := by
  intro l
  induction l with
  | nil => intro h; exact absurd rfl h
  | cons x xs ih =>
    intro _
    cases hxs : listMin xs with
    | none =>
      have hnil : xs = [] := by
        cases xs with
        | nil => rfl
        | cons z zs => simp [listMin] at hxs
      subst hnil
      refine ⟨x, rfl, List.mem_cons_self x [], ?_⟩
      intro y hy
      rcases List.mem_singleton.mp hy with rfl
      exact le_refl y
    | some r =>
      have hne : xs ≠ [] := by
        intro h
        subst h
        simp [listMin] at hxs
      obtain ⟨r2, hmin2, hmem, hbd⟩ := ih hne
      rw [hmin2] at hxs
      rcases Option.some.inj hxs with rfl
      refine ⟨min x r2, ?_, ?_, ?_⟩
      · simp only [listMin, hmin2]
      · rcases min_choice x r2 with h | h
        · rw [h]; exact List.mem_cons_self _ _
        · rw [h]; exact List.mem_cons_of_mem _ hmem
      · intro y hy
        rcases List.mem_cons.mp hy with rfl | hy
        · exact min_le_left _ _
        · exact le_trans (min_le_right _ _) (hbd y hy)

lemma posRatios_ne_nil (d : List ℚ) : ∀ s b : List ℚ, s.length = b.length →
    (∃ x ∈ s, 0 < x) →
    posRatios ⟨s, b, d⟩ ≠ [] := by
  intro s
  induction s with
  | nil => intro b _ hex; simp at hex
  | cons x xs ih =>
    intro b hlen hex
    cases b with
    | nil => simp at hlen
    | cons y ys =>
      by_cases hx : 0 < x
      · simp [posRatios, List.filter_cons, hx]
      · have hex2 : ∃ z ∈ xs, 0 < z := by
          rcases hex with ⟨z, hz, hzpos⟩
          rcases List.mem_cons.mp hz with rfl | hz
          · exact absurd hzpos hx
          · exact ⟨z, hz, hzpos⟩
        have hrec : posRatios (⟨x :: xs, y :: ys, d⟩ : PoissonPDF)
            = posRatios ⟨xs, ys, d⟩ := by
          simp [posRatios, List.filter_cons, hx]
        rw [hrec]
        exact ih ys (by simpa using hlen) hex2

lemma zipWith_zero_mul_add : ∀ s b : List ℚ, s.length = b.length →
    List.zipWith (fun x y => (0 : ℚ) * x + y) s b = b := by
  intro s
  induction s with
  | nil =>
    intro b hlen
    cases b with
    | nil => rfl
    | cons y ys => simp at hlen
  | cons x xs ih =>
    intro b hlen
    cases b with
    | nil => simp at hlen
    | cons y ys =>
      have ht := ih ys (by simpa using hlen)
      rw [List.zipWith_cons_cons, ht]
      norm_num

lemma map_zip_self {α β : Type} (g : α → α → β) :
    ∀ l : List α, (l.zip l).map (fun p => g p.1 p.2) = l.map (fun x => g x x) := by
  intro l
  induction l with
  | nil => rfl
  | cons x xs ih => simp [ih]

lemma rateVec_zero (m : PoissonPDF)
    (hlen : m.signal_yields.length = m.background_yields.length) :
    rateVec m 0 = m.background_yields :=
  zipWith_zero_mul_add m.signal_yields m.background_yields hlen

lemma sumOpt_map_eq_coe_sum {α : Type} (F : α → Option EReal) (g : α → ℝ) :
    ∀ l : List α, (∀ a ∈ l, F a = some ((g a : ℝ) : EReal)) →
    sumOpt (l.map F) = some (((l.map g).sum : ℝ) : EReal) := by
  intro l
  induction l with
  | nil => intro _; simp [sumOpt]
  | cons a as ih =>
    intro h
    have ha := h a (List.mem_cons_self a as)
    have htail := ih (fun x hx => h x (List.mem_cons_of_mem a hx))
    simp only [List.map_cons, sumOpt, ha, htail, Option.map₂_some_some, List.sum_cons]
    rw [← EReal.coe_add]

lemma rateVec_length (m : PoissonPDF)
    (hlen : m.signal_yields.length = m.background_yields.length) (mu : ℚ) :
    (rateVec m mu).length = m.signal_yields.length := by
  simp [rateVec, List.length_zipWith, hlen]

lemma rateVec_getD (m : PoissonPDF)
    (hlen : m.signal_yields.length = m.background_yields.length)
    (mu : ℚ) (j : ℕ) (hj : j < m.signal_yields.length) :
    (rateVec m mu).getD j 0
      = mu * m.signal_yields.getD j 0 + m.background_yields.getD j 0 := by
  have hjb : j < m.background_yields.length := hlen ▸ hj
  have hjr : j < (rateVec m mu).length := by rw [rateVec_length m hlen]; exact hj
  rw [List.getD_eq_getElem _ _ hjr, List.getD_eq_getElem _ _ hj,
    List.getD_eq_getElem _ _ hjb]
  simp [rateVec, List.getElem_zipWith]

/-! Theorems settling the specification claims. -/

/-- C5: `is_alive` returns true if and only if at least one bin has strictly
positive signal yield, i.e. it is false exactly when every signal yield is
non-positive. -/
theorem is_alive_iff_exists_pos (m : PoissonPDF) :
    m.is_alive = true ↔ ∃ s ∈ m.signal_yields, 0 < s := by
  simp [PoissonPDF.is_alive]

/-- C2: `expected_data(params)` is exactly the vector with i-th entry
`params[0] * signal_yields[i] + background_yields[i]`, one entry per bin;
being a plain function of the stored vectors it has no side effects. -/
theorem expected_data_spec (m : PoissonPDF)
    (hlen : m.signal_yields.length = m.background_yields.length)
    (mu : ℚ) (rest : List ℚ) (i : ℕ) (hi : i < m.signal_yields.length) :
    (expected_data m (mu :: rest)).length = m.signal_yields.length
    ∧ (expected_data m (mu :: rest)).getD i 0
        = mu * m.signal_yields.getD i 0 + m.background_yields.getD i 0 := by
  have hib : i < m.background_yields.length := hlen ▸ hi
  have hlz : (expected_data m (mu :: rest)).length = m.signal_yields.length := by
    simp [expected_data, rateVec, List.length_zipWith, hlen]
  refine ⟨hlz, ?_⟩
  rw [List.getD_eq_getElem _ _ (hlz ▸ hi), List.getD_eq_getElem _ _ hi,
    List.getD_eq_getElem _ _ hib]
  simp [expected_data, rateVec, List.getElem_zipWith]

/-- C2 witness: on the scenario model `signal=[10,5], background=[2,3],
data=[12,8]` at `params=[1]`, bin 1 of `expected_data` is `1 * 5 + 3`. -/
theorem expected_data_spec_witness :
    (expected_data (init [10, 5] [2, 3] [12, 8]) [1]).length = 2
    ∧ (expected_data (init [10, 5] [2, 3] [12, 8]) [1]).getD 1 0 = 8 := by
  have h := expected_data_spec (init [10, 5] [2, 3] [12, 8]) rfl 1 [] 1 (by decide)
  refine ⟨h.1, ?_⟩
  rw [h.2]
  norm_num [init, List.getD_cons_succ, List.getD_cons_zero]

/-- C10: the log-likelihood closure, the sampler closure and `expected_data`
read only entry 0 of the parameter vector, so two parameter vectors agreeing
at index 0 produce identical results from all three operations. -/
theorem closures_depend_only_on_poi (m : PoissonPDF) (e : ExpectationType)
    (d : Option (List ℚ)) (mu : ℚ) (rest rest2 : List ℚ)
    (ω : ℕ → ℕ → ℚ → ℕ) (N : ℕ) :
    get_logpdf_func m e d (mu :: rest) = get_logpdf_func m e d (mu :: rest2)
    ∧ get_sampler m (mu :: rest) ω N = get_sampler m (mu :: rest2) ω N
    ∧ expected_data m (mu :: rest) = expected_data m (mu :: rest2) :=
  ⟨rfl, rfl, rfl⟩

/-- C8: construction performs no validation at all: `__init__` merely stores
the three vectors, so a length-mismatched triple is accepted silently instead
of raising `InvalidConstruction` (here `signal` has length 1 while
`background` has length 2). -/
theorem init_no_length_validation :
    init [1] [1, 2] [1] = ⟨[1], [1, 2], [1]⟩
    ∧ (init [1] [1, 2] [1]).signal_yields.length = 1
    ∧ (init [1] [1, 2] [1]).background_yields.length = 2 := by
  exact ⟨rfl, rfl, rfl⟩

/-- C4: on `signal=[0,0], background=[1,1], data=[1,1]` the model is not
alive and `config` hits the unguarded empty reduction (`np.min` of an empty
array, modelled as `none`) for either value of `allow_negative_signal`; no
`DegenerateModel` guard exists in the code. -/
theorem config_degenerate_unguarded :
    (init [0, 0] [1, 1] [1, 1]).is_alive = false
    ∧ config (init [0, 0] [1, 1] [1, 1]) true 10 = none
    ∧ config (init [0, 0] [1, 1] [1, 1]) false 10 = none := by
  refine ⟨rfl, ?_, ?_⟩ <;> rfl

/-- C6: `get_logpdf_func` bases the likelihood on `background_yields` for the
apriori regime and on the stored observations for the observed and
aposteriori regimes; an explicit data argument overrides that selection
entirely (for every regime); and the apriori closure at `params=[0.0]` is the
sum over bins of the Poisson log-pmf of `background_yields[i]` at rate
`background_yields[i]`. -/
theorem get_logpdf_func_data_selection (m : PoissonPDF)
    (hlen : m.signal_yields.length = m.background_yields.length)
    (e : ExpectationType) (d pars : List ℚ) :
    get_logpdf_func m e (some d) pars = logLikOn m d pars
    ∧ get_logpdf_func m ExpectationType.observed none pars = logLikOn m m.data pars
    ∧ get_logpdf_func m ExpectationType.aposteriori none pars = logLikOn m m.data pars
    ∧ get_logpdf_func m ExpectationType.apriori none pars
        = logLikOn m m.background_yields pars
    ∧ get_logpdf_func m ExpectationType.apriori none [0]
        = sumOpt (m.background_yields.map (fun b => logpmfQ b b)) := by
  refine ⟨rfl, rfl, rfl, rfl, ?_⟩
  show logLikOn m m.background_yields [0]
      = sumOpt (m.background_yields.map (fun b => logpmfQ b b))
  unfold logLikOn
  rw [show (([0] : List ℚ).headI) = 0 from rfl, rateVec_zero m hlen,
    map_zip_self (fun a b => logpmfQ a b)]

/-- C6 witness: the data-selection facts instantiated on the concrete model
`signal=[10,5], background=[2,3], data=[12,8]` with override data `[1,2]`
and parameters `[1]`. -/
theorem get_logpdf_func_data_selection_witness :
    get_logpdf_func (init [10, 5] [2, 3] [12, 8]) ExpectationType.observed
        (some [1, 2]) [1] = logLikOn (init [10, 5] [2, 3] [12, 8]) [1, 2] [1]
    ∧ get_logpdf_func (init [10, 5] [2, 3] [12, 8]) ExpectationType.observed
        none [1] = logLikOn (init [10, 5] [2, 3] [12, 8]) [12, 8] [1]
    ∧ get_logpdf_func (init [10, 5] [2, 3] [12, 8]) ExpectationType.aposteriori
        none [1] = logLikOn (init [10, 5] [2, 3] [12, 8]) [12, 8] [1]
    ∧ get_logpdf_func (init [10, 5] [2, 3] [12, 8]) ExpectationType.apriori
        none [1] = logLikOn (init [10, 5] [2, 3] [12, 8]) [2, 3] [1]
    ∧ get_logpdf_func (init [10, 5] [2, 3] [12, 8]) ExpectationType.apriori
        none [0]
        = sumOpt (([2, 3] : List ℚ).map (fun b => logpmfQ b b)) :=
  get_logpdf_func_data_selection (init [10, 5] [2, 3] [12, 8]) rfl
    ExpectationType.observed [1, 2] [1]

/-- C3: for a model with at least one strictly positive signal bin, `config`
returns POI index 0, `min_poi` equal to the negated minimum of the ratios
`background[i]/signal[i]` over bins with `signal[i] > 0` (characterised here
as a least element of `posRatios`), suggested initial parameters `[0.0]`, and
one bounds pair `(min_poi or 0.0, poi_upper_bound)` according to
`allow_negative_signal`. -/
theorem config_spec (m : PoissonPDF)
    (hlen : m.signal_yields.length = m.background_yields.length)
    (halive : m.is_alive = true) (ans : Bool) (ub : ℚ) :
    ∃ c, config m ans ub = some c
      ∧ c.poi_index = 0
      ∧ (-c.minimum_poi) ∈ posRatios m
      ∧ (∀ r ∈ posRatios m, -c.minimum_poi ≤ r)
      ∧ c.suggested_init = [0]
      ∧ c.suggested_bounds = [((if ans then c.minimum_poi else 0), ub)] := by
  have hex : ∃ x ∈ m.signal_yields, 0 < x := by
    simpa [PoissonPDF.is_alive] using halive
  have hne : posRatios m ≠ [] := by
    obtain ⟨sv, bv, dv⟩ := m
    exact posRatios_ne_nil dv sv bv hlen hex
  obtain ⟨r, hmin, hmem, hbd⟩ := listMin_isLeast (posRatios m) hne
  refine ⟨⟨0, -r, [0], [(if ans then -r else 0, ub)]⟩, ?_, rfl, ?_, ?_, rfl, rfl⟩
  · unfold config
    rw [hmin]
  · simpa using hmem
  · intro q hq
    simpa using hbd q hq

/-- C3 witness: on `signal=[10,5], background=[2,3], data=[12,8]` with
`allow_negative_signal=true` and upper bound 7, the returned configuration
satisfies all the stated properties. -/
theorem config_spec_witness :
    ∃ c, config (init [10, 5] [2, 3] [12, 8]) true 7 = some c
      ∧ c.poi_index = 0
      ∧ (-c.minimum_poi) ∈ posRatios (init [10, 5] [2, 3] [12, 8])
      ∧ (∀ r ∈ posRatios (init [10, 5] [2, 3] [12, 8]), -c.minimum_poi ≤ r)
      ∧ c.suggested_init = [0]
      ∧ c.suggested_bounds = [((if true then c.minimum_poi else 0), 7)] :=
  config_spec (init [10, 5] [2, 3] [12, 8]) rfl rfl true 7

lemma logpmfQ_eq_spec (k lam : ℚ) (hden : k.den = 1) (hk : 0 ≤ k)
    (hlam : 0 < lam) :
    logpmfQ k lam = some ((specPoissonLogpmf k.num.toNat (lam : ℝ) : ℝ) : EReal) := by
  have h1 : ¬ lam < 0 := not_lt.mpr hlam.le
  have h2 : ¬ (k.den ≠ 1 ∨ k < 0) := by
    push_neg
    exact ⟨hden, hk⟩
  have h3 : ¬ lam = 0 := hlam.ne'
  unfold logpmfQ
  rw [if_neg h1, if_neg h2, if_neg h3]
  have hkr : (k : ℝ) = (k.num.toNat : ℝ) := by
    have hnum : (k.num : ℚ) = k := by
      conv_rhs => rw [← Rat.num_div_den k]
      rw [hden]
      norm_num
    calc (k : ℝ) = ((k.num : ℚ) : ℝ) := by rw [hnum]
      _ = ((k.num.toNat : ℤ) : ℝ) := by
          rw [Int.toNat_of_nonneg (Rat.num_nonneg.mpr hk)]
          push_cast
          ring
      _ = (k.num.toNat : ℝ) := by push_cast; ring
  congr 1
  norm_cast
  unfold specPoissonLogpmf
  rw [hkr]
  ring

/-- C1: on its domain (integer counts, strictly positive per-bin rates) the
closure returned by `get_logpdf_func` evaluates to the sum over bins of the
standard Poisson log-pmf `k·log(λ) − λ − log(k!)` of `data[i]` at rate
`params[0] * signal_yields[i] + background_yields[i]`. -/
theorem get_logpdf_func_poisson_sum (m : PoissonPDF)
    (_hlen1 : m.data.length = m.signal_yields.length)
    (_hlen2 : m.signal_yields.length = m.background_yields.length)
    (mu : ℚ) (rest : List ℚ)
    (hk : ∀ k ∈ m.data, k.den = 1 ∧ 0 ≤ k)
    (hpos : ∀ lam ∈ rateVec m mu, 0 < lam) :
    get_logpdf_func m ExpectationType.observed none (mu :: rest)
      = some ((((m.data.zip (rateVec m mu)).map
          (fun p => specPoissonLogpmf p.1.num.toNat (p.2 : ℝ))).sum : ℝ) : EReal) := by
  show logLikOn m m.data (mu :: rest) = _
  unfold logLikOn
  rw [show ((mu :: rest : List ℚ).headI) = mu from rfl]
  refine sumOpt_map_eq_coe_sum (fun p : ℚ × ℚ => logpmfQ p.1 p.2)
    (fun p : ℚ × ℚ => specPoissonLogpmf p.1.num.toNat (p.2 : ℝ)) _ ?_
  intro p hp
  obtain ⟨h1, h2⟩ := List.of_mem_zip hp
  exact logpmfQ_eq_spec p.1 p.2 (hk p.1 h1).1 (hk p.1 h1).2 (hpos p.2 h2)

/-- C1 witness: the spec scenario `signal=[10,5], background=[2,3],
data=[12,8]` at `params=[1.0]` in the observed regime: the closure value is
`log-pmf(12;12) + log-pmf(8;8)`. -/
theorem get_logpdf_func_poisson_sum_witness :
    get_logpdf_func (init [10, 5] [2, 3] [12, 8]) ExpectationType.observed
        none [1]
      = some ((specPoissonLogpmf 12 (12 : ℝ) + specPoissonLogpmf 8 (8 : ℝ) : ℝ) : EReal) := by
  have h := get_logpdf_func_poisson_sum (init [10, 5] [2, 3] [12, 8]) rfl rfl 1 []
    (by norm_num [init]) (by norm_num [init, rateVec])
  rw [h]
  norm_num [init, rateVec]
  rw [show Int.toNat 12 = 12 from rfl, show Int.toNat 8 = 8 from rfl]

lemma logpmfQ_of_neg (k lam : ℚ) (h : lam < 0) : logpmfQ k lam = none := by
  unfold logpmfQ
  rw [if_pos h]

lemma logpmfQ_finite_of_nonneg (k lam : ℚ) (h : 0 ≤ lam) :
    ∃ e, logpmfQ k lam = some e ∧ e ≠ ⊤ := by
  unfold logpmfQ
  rw [if_neg (not_lt.mpr h)]
  split_ifs with h1 h2 h3
  · exact ⟨⊥, rfl, bot_ne_top⟩
  · exact ⟨0, rfl, EReal.zero_ne_top⟩
  · exact ⟨⊥, rfl, bot_ne_top⟩
  · exact ⟨_, rfl, EReal.coe_ne_top _⟩

lemma logpmfQ_zero_rate_pos_count (k : ℚ) (hk : 0 < k) :
    logpmfQ k 0 = some ⊥ := by
  unfold logpmfQ
  rw [if_neg (lt_irrefl 0)]
  split_ifs with h1 h2 h3
  · rfl
  · exact absurd h3 hk.ne'
  · rfl
  · exact absurd rfl h2

lemma addOptEReal_ne_top {x y : EReal} (hx : x ≠ ⊤) (hy : y ≠ ⊤) :
    x + y ≠ ⊤ := by
  induction x with
  | h_bot => simp
  | h_real a =>
    induction y with
    | h_bot => simp
    | h_real b =>
      rw [← EReal.coe_add]
      exact EReal.coe_ne_top _
    | h_top => exact absurd rfl hy
  | h_top => exact absurd rfl hx

lemma sumOpt_none_of_mem : ∀ l : List (Option EReal), none ∈ l →
    sumOpt l = none := by
  intro l
  induction l with
  | nil => intro h; simp at h
  | cons x xs ih =>
    intro h
    rcases List.mem_cons.mp h with rfl | h
    · simp [sumOpt]
    · simp [sumOpt, ih h]

lemma sumOpt_finite : ∀ l : List (Option EReal),
    (∀ x ∈ l, ∃ e, x = some e ∧ e ≠ ⊤) →
    ∃ e, sumOpt l = some e ∧ e ≠ ⊤ := by
  intro l
  induction l with
  | nil => intro _; exact ⟨0, rfl, EReal.zero_ne_top⟩
  | cons x xs ih =>
    intro h
    obtain ⟨e1, he1, ht1⟩ := h x (List.mem_cons_self x xs)
    obtain ⟨e2, he2, ht2⟩ := ih (fun y hy => h y (List.mem_cons_of_mem x hy))
    refine ⟨e1 + e2, ?_, addOptEReal_ne_top ht1 ht2⟩
    simp [sumOpt, he1, he2]

lemma sumOpt_bot_of_mem : ∀ l : List (Option EReal),
    (∀ x ∈ l, ∃ e, x = some e ∧ e ≠ ⊤) → some ⊥ ∈ l →
    sumOpt l = some ⊥ := by
  intro l
  induction l with
  | nil => intro _ h; simp at h
  | cons x xs ih =>
    intro hall hbot
    rcases List.mem_cons.mp hbot with rfl | hbot
    · obtain ⟨e2, he2, ht2⟩ :=
        sumOpt_finite xs (fun y hy => hall y (List.mem_cons_of_mem _ hy))
      simp [sumOpt, he2, EReal.bot_add]
    · obtain ⟨e1, he1, _⟩ := hall x (List.mem_cons_self x xs)
      have ht := ih (fun y hy => hall y (List.mem_cons_of_mem x hy)) hbot
      simp [sumOpt, he1, ht, EReal.add_bot]

/-- C7 counterexample: on `signal=[1], background=[0], data=[1]` at
`params=[-1]` the single rate is `-1 ≤ 0` while the count `1 > 0`, yet the
closure returns NaN (`none`, as `scipy.stats.poisson.logpmf` does for a
negative rate) rather than `-∞`, so the claim as stated is false. -/
theorem logpdf_neg_rate_counterexample :
    ((-1 : ℚ) * 1 + 0 ≤ 0 ∧ (0 : ℚ) < 1)
    ∧ get_logpdf_func (init [1] [0] [1]) ExpectationType.observed none [-1] = none
    ∧ (none : Option EReal) ≠ some ⊥ := by
  refine ⟨⟨by norm_num, by norm_num⟩, ?_, by simp⟩
  show logLikOn (init [1] [0] [1]) [1] [-1] = none
  unfold logLikOn rateVec init
  apply sumOpt_none_of_mem
  simp only [List.zipWith_cons_cons, List.zipWith_nil_right, List.zip_cons_cons,
    List.zip_nil_right, List.map_cons, List.map_nil, List.mem_singleton]
  rw [show (([-1] : List ℚ).headI) = -1 from rfl,
    logpmfQ_of_neg 1 (-1 * 1 + 0) (by norm_num)]

/-- C7 amended: the closure is total (never raises); a strictly negative
per-bin rate makes the whole sum NaN (`none`), matching scipy, while a zero
rate paired with a positive count makes the sum `-∞` provided no rate is
negative; and the `λ = 0, k = 0` convention gives a zero contribution. -/
theorem logpdf_out_of_domain (m : PoissonPDF) (e : ExpectationType)
    (dopt : Option (List ℚ)) (mu : ℚ) (rest : List ℚ) :
    ((∃ p ∈ (effectiveData m e dopt).zip (rateVec m mu), p.2 < 0) →
      get_logpdf_func m e dopt (mu :: rest) = none)
    ∧ ((∀ p ∈ (effectiveData m e dopt).zip (rateVec m mu), 0 ≤ p.2) →
       (∃ p ∈ (effectiveData m e dopt).zip (rateVec m mu), p.2 = 0 ∧ 0 < p.1) →
      get_logpdf_func m e dopt (mu :: rest) = some ⊥)
    ∧ logpmfQ 0 0 = some 0 := by
  refine ⟨?_, ?_, rfl⟩
  · rintro ⟨p, hp, hneg⟩
    show logLikOn m (effectiveData m e dopt) (mu :: rest) = none
    unfold logLikOn
    apply sumOpt_none_of_mem
    rw [show ((mu :: rest : List ℚ).headI) = mu from rfl]
    refine List.mem_map.mpr ⟨p, hp, ?_⟩
    exact logpmfQ_of_neg p.1 p.2 hneg
  · rintro hnn ⟨p, hp, hzero, hcount⟩
    show logLikOn m (effectiveData m e dopt) (mu :: rest) = some ⊥
    unfold logLikOn
    rw [show ((mu :: rest : List ℚ).headI) = mu from rfl]
    apply sumOpt_bot_of_mem
    · intro x hx
      obtain ⟨q, hq, rfl⟩ := List.mem_map.mp hx
      exact logpmfQ_finite_of_nonneg q.1 q.2 (hnn q hq)
    · refine List.mem_map.mpr ⟨p, hp, ?_⟩
      rw [hzero] at *
      exact logpmfQ_zero_rate_pos_count p.1 hcount

/-- C7 witness: on `signal=[1], background=[0], data=[1]` at `params=[0]`
the single rate is exactly 0 with count 1, and the closure value is `-∞`. -/
theorem logpdf_out_of_domain_witness :
    get_logpdf_func (init [1] [0] [1]) ExpectationType.observed none [0] = some ⊥ := by
  refine (logpdf_out_of_domain (init [1] [0] [1]) ExpectationType.observed
    none 0 []).2.1 ?_ ?_
  · intro p hp
    simp [effectiveData, init, rateVec] at hp
    subst hp
    norm_num
  · refine ⟨(1, 0), ?_, rfl, by norm_num⟩
    simp [effectiveData, init, rateVec]

/-- C9: for any parameter vector and sample count `N`, the sampler closure
returns an integer matrix with `N` rows of `number_of_bins` entries each,
where entry `(i, j)` is a draw of the Poisson primitive `ω` at rate
`params[0] * signal_yields[j] + background_yields[j]`; the distributional
behaviour of the draws themselves is that of the external scipy primitive
abstracted by `ω`. -/
theorem get_sampler_spec (m : PoissonPDF)
    (hlen : m.signal_yields.length = m.background_yields.length)
    (mu : ℚ) (rest : List ℚ) (ω : ℕ → ℕ → ℚ → ℕ) (N : ℕ) :
    (get_sampler m (mu :: rest) ω N).length = N
    ∧ (∀ row ∈ get_sampler m (mu :: rest) ω N,
        row.length = m.signal_yields.length)
    ∧ ∀ i j : ℕ, i < N → j < m.signal_yields.length →
        ((get_sampler m (mu :: rest) ω N).getD i []).getD j 0
          = ω i j (mu * m.signal_yields.getD j 0
              + m.background_yields.getD j 0) := by
  refine ⟨by simp [get_sampler], ?_, ?_⟩
  · intro row hrow
    obtain ⟨i, _, rfl⟩ := List.mem_map.mp hrow
    simp
  · intro i j hi hj
    have hi2 : i < (get_sampler m (mu :: rest) ω N).length := by
      simpa [get_sampler] using hi
    rw [List.getD_eq_getElem _ _ hi2]
    simp only [get_sampler, List.headI, List.getElem_map, List.getElem_range]
    have hj2 : j < ((List.range m.signal_yields.length).map (fun t =>
        ω i t ((rateVec m mu).getD t 0))).length := by
      simpa using hj
    rw [List.getD_eq_getElem _ _ hj2]
    simp only [List.getElem_map, List.getElem_range]
    rw [rateVec_getD m hlen mu j hj]

/-- C9 witness: on the scenario model at `params=[1]` with two requested
samples and a concrete draw oracle, the matrix is 2 × 2 and each entry is
the oracle draw at the corresponding bin rate. -/
theorem get_sampler_spec_witness :
    (get_sampler (init [10, 5] [2, 3] [12, 8]) [1] (fun i j _ => i + j) 2).length = 2
    ∧ (∀ row ∈ get_sampler (init [10, 5] [2, 3] [12, 8]) [1]
          (fun i j _ => i + j) 2, row.length = 2)
    ∧ ∀ i j : ℕ, i < 2 → j < 2 →
        ((get_sampler (init [10, 5] [2, 3] [12, 8]) [1]
            (fun i j _ => i + j) 2).getD i []).getD j 0
          = (fun i j (_ : ℚ) => i + j) i j
              (1 * (init [10, 5] [2, 3] [12, 8]).signal_yields.getD j 0
                + (init [10, 5] [2, 3] [12, 8]).background_yields.getD j 0) :=
  get_sampler_spec (init [10, 5] [2, 3] [12, 8]) rfl 1 [] (fun i j _ => i + j) 2

end ExamplePoisson
